import Mathlib

/-!
Verification of `scripts/fix_deepwiki_links.py`.

The script rewrites relative links inside the "Relevant source files"
`<details>` block of DeepWiki-exported markdown files stored under
`docs/deepwiki/`.  We embed the program shallowly: a document is a list of
characters, lines are produced by Python's `str.splitlines(keepends=True)`,
the link regex `^(\s*-\s*\[[^\]]+\]\()([^)]+)(\)\s*)$` is realised as a
deterministic parser (every quantified character class in the pattern
excludes the delimiter that follows it, so the regex is backtrack-free and
the parser below computes exactly the unique match, including the greedy
trailing `\s*` which absorbs the line terminator before `$`), and the
directory-level behaviour is modelled over an abstract file system.
-/

abbrev Line := List Char

/-- Python whitespace, as matched by `\s` in a `str` pattern and stripped by
`str.strip()`: ASCII whitespace, the information-separator controls,
NEL, NBSP and the Unicode line/paragraph separators.  (Further Unicode
category-Zs code points exist but behave identically for every lemma
below, which never depends on the exact extent of this set.) -/
def isSpace (c : Char) : Bool :=
  c == ' ' || c == '\t' || c == '\n' || c == '\r' || c == '\x0b' ||
  c == '\x0c' || c == '\x1c' || c == '\x1d' || c == '\x1e' || c == '\x1f' ||
  c == '\x85' || c == '\u00A0' || c == '\u2028' || c == '\u2029'

/-- Line terminators recognised by Python's `str.splitlines`. -/
def isTerm (c : Char) : Bool :=
  c == '\n' || c == '\r' || c == '\x0b' || c == '\x0c' || c == '\x1c' ||
  c == '\x1d' || c == '\x1e' || c == '\x85' || c == '\u2028' || c == '\u2029'

/-- `text.splitlines(keepends=True)`: cut after every terminator, treating
`"\r\n"` as a single terminator; a trailing fragment without terminator is
kept as a final line.  (A one-character tail is one line whether or not
the character is a terminator, hence the merged `[c]` base case.) -/
def splitlines : List Char → List (List Char)
  | [] => []
  | [c] => [[c]]
  | c :: c2 :: cs =>
    if c = '\r' ∧ c2 = '\n' then ['\r', '\n'] :: splitlines cs
    else if isTerm c then [c] :: splitlines (c2 :: cs)
    else
      match splitlines (c2 :: cs) with
      | [] => [[c]]
      | l :: ls => (c :: l) :: ls

/-- `"".join(out)`. -/
def joinLines (ls : List Line) : Line :=
  ls.foldr (fun a b => a ++ b) []

/-- Remove trailing Python whitespace. -/
def rstrip (l : Line) : Line :=
  (l.reverse.dropWhile isSpace).reverse

/-- `line.strip()`. -/
def stripLine (l : Line) : Line :=
  rstrip (l.dropWhile isSpace)

/-- `small.isPrefixOf big` for char lists, written out. -/
def startsWith : List Char → List Char → Bool
  | [], _ => true
  | _ :: _, [] => false
  | p :: ps, c :: cs => p == c && startsWith ps cs

/-- `target.startswith(("http://", "https://", "#", "../", "./"))`. -/
def startsAny (t : Line) : Bool :=
  startsWith "http://".data t || startsWith "https://".data t ||
  startsWith "#".data t || startsWith "../".data t || startsWith "./".data t

/-- The three-rule target rewrite (lines 57-62 of the script): the exact
legacy path is relocated into `docs/notes`, absolute/anchor/already-relative
targets pass through, anything else is re-rooted with `../../`. -/
def rewriteTarget (t : Line) : Line :=
  if t = "doc/download-flow.md".data then "../notes/download_flow.md".data
  else if startsAny t then t
  else "../../".data ++ t

/-- The regex `^(\s*-\s*\[[^\]]+\]\()([^)]+)(\)\s*)$` applied with
`re.match` to one keepends line.  Returns the three capture groups
(prefix, target, suffix).  Because `[^\]]+` cannot cross the `]` that must
follow it, `[^)]+` cannot cross the `)` that must follow it, and `\s*`
never absorbs the non-space characters `-` and `[`, the regex has exactly
one way to match; `$` is reached with the greedy `\s*` having consumed the
entire tail, so the suffix group carries the line terminator. -/
def expectChar (c : Char) : Line → Option Line
  | [] => none
  | x :: xs => if x = c then some xs else none

def linkMatch (l : Line) : Option (Line × Line × Line) :=
  (expectChar '-' (l.dropWhile isSpace)).bind (fun r2 =>
  (expectChar '[' (r2.dropWhile isSpace)).bind (fun r4 =>
  (expectChar ']' (r4.dropWhile (fun c => c != ']'))).bind (fun r5 =>
  (expectChar '(' r5).bind (fun r6 =>
  (expectChar ')' (r6.dropWhile (fun c => c != ')'))).bind (fun r8 =>
  if r4.takeWhile (fun c => c != ']') = [] then none
  else if r6.takeWhile (fun c => c != ')') = [] then none
  else if r8.all isSpace then
    some
      (l.takeWhile isSpace ++ '-' ::
         (r2.takeWhile isSpace ++ '[' ::
            (r4.takeWhile (fun c => c != ']') ++ [']', '('])),
       r6.takeWhile (fun c => c != ')'),
       ')' :: r8)
  else none)))))

/-- The shape forced by a successful match of the link pattern: the three
groups decompose the line, the prefix is whitespace, one dash, whitespace,
a bracketed nonempty link text and the opening parenthesis, the target is
nonempty and free of closing parentheses, and the suffix is the closing
parenthesis followed by whitespace only. -/
def MatchParts (l p t s : Line) : Prop :=
  ∃ ws1 ws2 txt r8,
    ws1.all isSpace = true ∧ ws2.all isSpace = true ∧
    txt ≠ [] ∧ txt.all (fun c => c != ']') = true ∧
    t ≠ [] ∧ t.all (fun c => c != ')') = true ∧
    r8.all isSpace = true ∧
    p = ws1 ++ '-' :: (ws2 ++ '[' :: (txt ++ [']', '('])) ∧
    s = ')' :: r8 ∧
    l = p ++ t ++ s

/-- One iteration of the per-line loop (lines 40-68): marker lines toggle
the `in_details` flag and pass through; inside the region a line matching
the link pattern has its target rewritten, setting the per-line changed
bit when the target actually changed.  Result: (new flag, output line,
changed bit). -/
def stepLine (inD : Bool) (l : Line) : Bool × Line × Bool :=
  if stripLine l = "<details>".data then (true, l, false)
  else if stripLine l = "</details>".data then (false, l, false)
  else if inD then
    match linkMatch l with
    | some (p, t, s) =>
      if rewriteTarget t ≠ t then (inD, p ++ rewriteTarget t ++ s, true)
      else (inD, l, false)
    | none => (inD, l, false)
  else (inD, l, false)

/-- The whole per-document loop: returns (output lines, final flag,
document changed flag — the or of all per-line changed bits). -/
def processLines : Bool → List Line → List Line × Bool × Bool
  | inD, [] => ([], inD, false)
  | inD, l :: ls =>
    let r := stepLine inD l
    let rest := processLines r.1 ls
    (r.2.1 :: rest.1, rest.2.1, r.2.2 || rest.2.2)

/-- Processing of one document's text (lines 33-66): split keepends,
fold the line loop from `in_details = False`, join the output. -/
def processDoc (text : List Char) : List Char × Bool :=
  let r := processLines false (splitlines text)
  (joinLines r.1, r.2.2)

/-- Abstract file system seen by `main`: whether `docs/deepwiki` is a
directory, and the directory entries (file name, content). -/
structure FS where
  deepwikiIsDir : Bool
  files : List (String × List Char)

/-- The `SystemExit` message (string quotes around the path dropped). -/
def missingDirMsg : String :=
  "Expected docs/deepwiki/ to exist. Run deepwiki-export and move the output to docs/deepwiki first."

/-- Lexicographic comparison of char lists, for `sorted(...)`. -/
def lexLe : List Char → List Char → Bool
  | [], _ => true
  | _ :: _, [] => false
  | a :: as, b :: bs => if a < b then true else if a = b then lexLe as bs else false

def insertFile (x : String × List Char) :
    List (String × List Char) → List (String × List Char)
  | [] => [x]
  | y :: ys => if lexLe x.1.data y.1.data then x :: y :: ys else y :: insertFile x ys

/-- `sorted(deepwiki_dir.glob("*.md"))`, as an insertion sort. -/
def sortFiles (l : List (String × List Char)) : List (String × List Char) :=
  l.foldr insertFile []

/-- Does the file name match the glob `*.md`? -/
def isMdName (n : String) : Bool :=
  startsWith ".md".data.reverse n.data.reverse

/-- The globbed, sorted work list. -/
def mdDocs (fs : FS) : List (String × List Char) :=
  sortFiles (fs.files.filter (fun f => isMdName f.1))

/-- What `main` does with one directory entry: `README.md` is skipped
before its content is read; otherwise the document is processed and a
write-back is produced exactly when the changed flag is set. -/
def writeOf (f : String × List Char) : Option (String × List Char) :=
  if f.1 = "README.md" then none
  else
    let r := processDoc f.2
    if r.2 then some (f.1, r.1) else none

/-- `main()`: abort with `SystemExit` when the directory is missing,
otherwise return the list of performed `write_text` calls. -/
def runMain (fs : FS) : Except String (List (String × List Char)) :=
  if fs.deepwikiIsDir then .ok ((mdDocs fs).filterMap writeOf)
  else .error missingDirMsg

/-- Modelled from the spec, section 4.2 (Region Detection state machine):
open marker sends the state to INSIDE, close marker to OUTSIDE, any other
line leaves it unchanged; the terminal state is whichever state is
reached. -/
def specRegionState (st : Bool) : List Line → Bool
  | [] => st
  | l :: ls =>
    specRegionState
      (if stripLine l = "<details>".data then true
       else if stripLine l = "</details>".data then false
       else st) ls

/-- No character of the list is a line terminator. -/
def noTermChar (l : Line) : Prop :=
  ∀ c ∈ l, isTerm c = false

/-- A line as produced by the keepends split, ending in a terminator:
a terminator-free body followed by one terminator (with `"\r\n"` counting
as one). -/
def MidWF (l : Line) : Prop :=
  ∃ b term, l = b ++ term ∧ noTermChar b ∧
    (term = ['\r', '\n'] ∨ ∃ c, isTerm c = true ∧ term = [c])

/-- The last line of a keepends split: terminated, or a nonempty
terminator-free fragment. -/
def LastWF (l : Line) : Prop :=
  MidWF l ∨ (l ≠ [] ∧ noTermChar l)

/-- Well-formedness of a keepends line list: every line but the last is
terminated, the last is terminated or a nonempty fragment, and a line
ending in a lone `CR` is never followed by a line starting with `LF`
(the original split would have fused them). -/
def LinesWF : List Line → Prop
  | [] => True
  | [l] => LastWF l
  | l :: l2 :: ls =>
    MidWF l ∧ (l.getLast? = some '\r' → l2.head? ≠ some '\n') ∧
      LinesWF (l2 :: ls)

/-! ### Basic list helpers -/

theorem all_takeWhileP (p : Char → Bool) (l : List Char) :
    (l.takeWhile p).all p = true := by
  induction l with
  | nil => rfl
  | cons x xs ih =>
    rw [List.takeWhile_cons]
    cases hpx : p x <;> simp [hpx, ih]

theorem takeWhile_all_append {p : Char → Bool} (xs : List Char) (c : Char)
    (r : List Char) (hxs : xs.all p = true) (hc : p c = false) :
    (xs ++ c :: r).takeWhile p = xs := by
  induction xs with
  | nil => simp [List.takeWhile_cons, hc]
  | cons x xs ih =>
    simp only [List.all_cons, Bool.and_eq_true] at hxs
    simp [List.takeWhile_cons, hxs.1, ih hxs.2]

theorem dropWhile_all_append {p : Char → Bool} (xs : List Char) (c : Char)
    (r : List Char) (hxs : xs.all p = true) (hc : p c = false) :
    (xs ++ c :: r).dropWhile p = c :: r := by
  induction xs with
  | nil => simp [List.dropWhile_cons, hc]
  | cons x xs ih =>
    simp only [List.all_cons, Bool.and_eq_true] at hxs
    simp [List.dropWhile_cons, hxs.1, ih hxs.2]

theorem expectChar_eq_some {c : Char} {l r : Line} :
    expectChar c l = some r ↔ l = c :: r := by
  cases l with
  | nil => simp [expectChar]
  | cons x xs =>
    by_cases hx : x = c
    · subst hx; simp [expectChar]
    · constructor
      · intro h
        rw [expectChar, if_neg hx] at h
        exact absurd h (by simp)
      · intro h
        exact absurd (List.cons.inj h).1 hx

/-! ### Characterisation of the link pattern -/

theorem linkMatch_some {l p t s : Line} (h : linkMatch l = some (p, t, s)) :
    MatchParts l p t s := by
  unfold linkMatch at h
  cases e1 : expectChar '-' (l.dropWhile isSpace) with
  | none => rw [e1] at h; simp at h
  | some r2 =>
  rw [e1] at h; rw [Option.some_bind] at h
  cases e2 : expectChar '[' (r2.dropWhile isSpace) with
  | none => rw [e2] at h; simp at h
  | some r4 =>
  rw [e2] at h; rw [Option.some_bind] at h
  cases e3 : expectChar ']' (r4.dropWhile (fun c => c != ']')) with
  | none => rw [e3] at h; simp at h
  | some r5 =>
  rw [e3] at h; rw [Option.some_bind] at h
  cases e4 : expectChar '(' r5 with
  | none => rw [e4] at h; simp at h
  | some r6 =>
  rw [e4] at h; rw [Option.some_bind] at h
  cases e5 : expectChar ')' (r6.dropWhile (fun c => c != ')')) with
  | none => rw [e5] at h; simp at h
  | some r8 =>
  rw [e5] at h; rw [Option.some_bind] at h
  rw [expectChar_eq_some] at e1 e2 e3 e4 e5
  by_cases c1 : r4.takeWhile (fun c => c != ']') = []
  · rw [if_pos c1] at h; simp at h
  rw [if_neg c1] at h
  by_cases c2 : r6.takeWhile (fun c => c != ')') = []
  · rw [if_pos c2] at h; simp at h
  rw [if_neg c2] at h
  by_cases c3 : r8.all isSpace = true
  · rw [if_pos c3] at h
    injection h with h
    injection h with hp h
    injection h with ht hs
    refine ⟨l.takeWhile isSpace, r2.takeWhile isSpace,
      r4.takeWhile (fun c => c != ']'), r8,
      all_takeWhileP _ _, all_takeWhileP _ _, c1, all_takeWhileP _ _,
      ?_, ?_, c3, hp.symm, hs.symm, ?_⟩
    · rw [← ht]; exact c2
    · rw [← ht]; exact all_takeWhileP _ _
    · subst e4
      have g1 : l.takeWhile isSpace ++ l.dropWhile isSpace = l :=
        List.takeWhile_append_dropWhile _ _
      have g2 : r2.takeWhile isSpace ++ r2.dropWhile isSpace = r2 :=
        List.takeWhile_append_dropWhile _ _
      have g3 : r4.takeWhile (fun c => c != ']') ++
          r4.dropWhile (fun c => c != ']') = r4 :=
        List.takeWhile_append_dropWhile _ _
      have g4 : r6.takeWhile (fun c => c != ')') ++
          r6.dropWhile (fun c => c != ')') = r6 :=
        List.takeWhile_append_dropWhile _ _
      rw [← hp, ← ht, ← hs]
      conv_lhs => rw [← g1, e1, ← g2, e2, ← g3, e3, ← g4, e5]
      simp
  · rw [if_neg c3] at h; simp at h

theorem linkMatch_build (ws1 ws2 txt t r8 : Line)
    (h1 : ws1.all isSpace = true) (h2 : ws2.all isSpace = true)
    (h3 : txt ≠ []) (h4 : txt.all (fun c => c != ']') = true)
    (h5 : t ≠ []) (h6 : t.all (fun c => c != ')') = true)
    (h7 : r8.all isSpace = true) :
    linkMatch (ws1 ++ '-' :: (ws2 ++ '[' :: (txt ++ ']' :: '(' :: (t ++ ')' :: r8)))) =
      some (ws1 ++ '-' :: (ws2 ++ '[' :: (txt ++ [']', '('])), t, ')' :: r8) := by
  have d1 : (ws1 ++ '-' :: (ws2 ++ '[' :: (txt ++ ']' :: '(' :: (t ++ ')' :: r8)))).dropWhile
      isSpace = '-' :: (ws2 ++ '[' :: (txt ++ ']' :: '(' :: (t ++ ')' :: r8))) :=
    dropWhile_all_append _ _ _ h1 (by decide)
  have t1 : (ws1 ++ '-' :: (ws2 ++ '[' :: (txt ++ ']' :: '(' :: (t ++ ')' :: r8)))).takeWhile
      isSpace = ws1 :=
    takeWhile_all_append _ _ _ h1 (by decide)
  have d2 : (ws2 ++ '[' :: (txt ++ ']' :: '(' :: (t ++ ')' :: r8))).dropWhile isSpace =
      '[' :: (txt ++ ']' :: '(' :: (t ++ ')' :: r8)) :=
    dropWhile_all_append _ _ _ h2 (by decide)
  have t2 : (ws2 ++ '[' :: (txt ++ ']' :: '(' :: (t ++ ')' :: r8))).takeWhile isSpace = ws2 :=
    takeWhile_all_append _ _ _ h2 (by decide)
  have d3 : (txt ++ ']' :: '(' :: (t ++ ')' :: r8)).dropWhile (fun c => c != ']') =
      ']' :: '(' :: (t ++ ')' :: r8) :=
    dropWhile_all_append _ _ _ h4 (by decide)
  have t3 : (txt ++ ']' :: '(' :: (t ++ ')' :: r8)).takeWhile (fun c => c != ']') = txt :=
    takeWhile_all_append _ _ _ h4 (by decide)
  have d4 : (t ++ ')' :: r8).dropWhile (fun c => c != ')') = ')' :: r8 :=
    dropWhile_all_append _ _ _ h6 (by decide)
  have t4 : (t ++ ')' :: r8).takeWhile (fun c => c != ')') = t :=
    takeWhile_all_append _ _ _ h6 (by decide)
  have es : ∀ (c : Char) (xs : Line), expectChar c (c :: xs) = some xs := by
    intro c xs; simp [expectChar]
  unfold linkMatch
  simp only [d1, d2, d3, d4, es, Option.some_bind, t1, t2, t3, t4]
  rw [if_neg h3, if_neg h5, if_pos h7]

/-! ### Strip and marker lemmas -/

theorem dropWhile_append_last {p : Char → Bool} (ys : List Char) (c : Char)
    (hc : p c = false) : (ys ++ [c]).dropWhile p = ys.dropWhile p ++ [c] := by
  induction ys with
  | nil => simp [List.dropWhile_cons, hc]
  | cons y ys ih =>
    cases hpy : p y <;> simp [List.dropWhile_cons, hpy, ih]

theorem rstrip_cons {c : Char} (hc : isSpace c = false) (xs : Line) :
    rstrip (c :: xs) = c :: rstrip xs := by
  unfold rstrip
  rw [List.reverse_cons, dropWhile_append_last _ _ hc, List.reverse_append]
  simp

theorem stripLine_match_head {l p t s : Line} (h : MatchParts l p t s) :
    ∃ r, stripLine l = '-' :: r := by
  obtain ⟨ws1, ws2, txt, r8, hws1, _, _, _, _, _, _, hp, hs, hl⟩ := h
  have hl2 : l = ws1 ++ '-' :: ((ws2 ++ '[' :: (txt ++ [']', '('])) ++ t ++ s) := by
    rw [hl, hp]; simp
  refine ⟨rstrip ((ws2 ++ '[' :: (txt ++ [']', '('])) ++ t ++ s), ?_⟩
  unfold stripLine
  rw [hl2, dropWhile_all_append _ _ _ hws1 (by decide),
    rstrip_cons (by decide)]

theorem match_not_marker {l p t s : Line} (h : MatchParts l p t s) :
    stripLine l ≠ "<details>".data ∧ stripLine l ≠ "</details>".data := by
  obtain ⟨r, hr⟩ := stripLine_match_head h
  have hopen : "<details>".data = '<' :: "details>".data := rfl
  have hclose : "</details>".data = '<' :: "/details>".data := rfl
  constructor
  · rw [hr, hopen]
    intro he
    exact absurd (List.cons.inj he).1 (by decide)
  · rw [hr, hclose]
    intro he
    exact absurd (List.cons.inj he).1 (by decide)

/-! ### The rewrite rule table -/

theorem rewriteTarget_lit :
    rewriteTarget "doc/download-flow.md".data = "../notes/download_flow.md".data := by
  decide

theorem startsAny_lit_false : startsAny "doc/download-flow.md".data = false := by
  decide

theorem rewriteTarget_pass {t : Line} (h : startsAny t = true) :
    rewriteTarget t = t := by
  have hne : t ≠ "doc/download-flow.md".data := by
    intro he
    subst he
    exact absurd h (by decide)
  unfold rewriteTarget
  rw [if_neg hne, if_pos h]

theorem rewriteTarget_root {t : Line} (h1 : t ≠ "doc/download-flow.md".data)
    (h2 : startsAny t = false) : rewriteTarget t = "../../".data ++ t := by
  unfold rewriteTarget
  rw [if_neg h1, if_neg (by simp [h2])]

theorem root_ne (t : Line) : "../../".data ++ t ≠ t := by
  intro h
  have := congrArg List.length h
  simp [List.length_append] at this
  omega

theorem startsAny_root (t : Line) : startsAny ("../../".data ++ t) = true := by
  have h4 : startsWith "../".data ("../../".data ++ t) = true := by
    have hc : ("../../".data ++ t) = '.' :: '.' :: '/' :: ('.' :: '.' :: '/' :: t) := rfl
    rw [hc]
    simp [startsWith]
  unfold startsAny
  rw [h4]
  simp

theorem root_ne_lit (t : Line) :
    ("../../".data ++ t) ≠ "doc/download-flow.md".data := by
  intro h
  have := startsAny_root t
  rw [h] at this
  exact absurd this (by decide)

theorem rewriteTarget_fix {t : Line} (h : rewriteTarget t ≠ t) :
    rewriteTarget (rewriteTarget t) = rewriteTarget t := by
  by_cases h1 : t = "doc/download-flow.md".data
  · subst h1
    rw [rewriteTarget_lit]
    decide
  · by_cases h2 : startsAny t = true
    · exact absurd (rewriteTarget_pass h2) h
    · have h2f : startsAny t = false := Bool.eq_false_iff.mpr h2
      rw [rewriteTarget_root h1 h2f]
      exact rewriteTarget_pass (startsAny_root t)

theorem rewriteTarget_ne_nil {t : Line} (h : rewriteTarget t ≠ t) :
    rewriteTarget t ≠ [] := by
  by_cases h1 : t = "doc/download-flow.md".data
  · subst h1
    rw [rewriteTarget_lit]
    decide
  · by_cases h2 : startsAny t = true
    · exact absurd (rewriteTarget_pass h2) h
    · have h2f : startsAny t = false := Bool.eq_false_iff.mpr h2
      rw [rewriteTarget_root h1 h2f]
      intro he
      exact absurd (congrArg List.length he) (by simp [List.length_append])

theorem rewriteTarget_no_paren {t : Line} (ht : t.all (fun c => c != ')') = true) :
    (rewriteTarget t).all (fun c => c != ')') = true := by
  by_cases h1 : t = "doc/download-flow.md".data
  · subst h1
    rw [rewriteTarget_lit]
    decide
  · by_cases h2 : startsAny t = true
    · rw [rewriteTarget_pass h2]; exact ht
    · have h2f : startsAny t = false := Bool.eq_false_iff.mpr h2
      rw [rewriteTarget_root h1 h2f, List.all_append]
      rw [ht]
      decide

/-! ### stepLine computation lemmas -/

theorem stepLine_match_changed {l p t s : Line} (h : linkMatch l = some (p, t, s))
    (hne : rewriteTarget t ≠ t) :
    stepLine true l = (true, p ++ rewriteTarget t ++ s, true) := by
  have hm := match_not_marker (linkMatch_some h)
  unfold stepLine
  rw [if_neg hm.1, if_neg hm.2, if_pos rfl, h]
  show (if rewriteTarget t ≠ t then (true, p ++ rewriteTarget t ++ s, true)
    else (true, l, false)) = _
  rw [if_pos hne]

theorem stepLine_match_unchanged {l p t s : Line} (h : linkMatch l = some (p, t, s))
    (heq : rewriteTarget t = t) : stepLine true l = (true, l, false) := by
  have hm := match_not_marker (linkMatch_some h)
  unfold stepLine
  rw [if_neg hm.1, if_neg hm.2, if_pos rfl, h]
  show (if rewriteTarget t ≠ t then (true, p ++ rewriteTarget t ++ s, true)
    else (true, l, false)) = _
  rw [if_neg (fun hh => hh heq)]

/-! ### Claims about single-line rewriting -/

/-- C2: inside the details region, a matching line whose target is exactly
`doc/download-flow.md` is rewritten to target `../notes/download_flow.md`;
the exact-literal rule wins over the `../../` fallback even though the
target does not start with `./`, `../`, `#` or a scheme. -/
theorem claim_C2_legacy_doc_link {l p s : Line}
    (h : linkMatch l = some (p, "doc/download-flow.md".data, s)) :
    stepLine true l = (true, p ++ "../notes/download_flow.md".data ++ s, true) := by
  have hstep := stepLine_match_changed h (by rw [rewriteTarget_lit]; decide)
  rwa [rewriteTarget_lit] at hstep

theorem claim_C2_witness :
    stepLine true "- [Download](doc/download-flow.md)\n".data =
      (true, "- [Download](".data ++ "../notes/download_flow.md".data ++ ")\n".data,
        true) :=
  claim_C2_legacy_doc_link (by decide)

/-- C3: inside the details region, a matching line whose target starts with
`http://`, `https://`, `#`, `../` or `./` (and is not the legacy literal)
is passed through byte-identical with the changed bit clear. -/
theorem claim_C3_passthrough {l p t s : Line}
    (h : linkMatch l = some (p, t, s)) (hpre : startsAny t = true)
    (hlit : t ≠ "doc/download-flow.md".data) :
    stepLine true l = (true, l, false) :=
  stepLine_match_unchanged h (rewriteTarget_pass hpre)

theorem claim_C3_witness :
    stepLine true "- [x](#section)\n".data =
      (true, "- [x](#section)\n".data, false) :=
  @claim_C3_passthrough "- [x](#section)\n".data "- [x](".data "#section".data
    ")\n".data (by decide) (by decide) (by decide)

/-- C4: inside the details region, a matching line whose target is neither
the legacy literal nor prefixed by `http://`, `https://`, `#`, `../`, `./`
has its target rewritten to `../../` ++ target. -/
theorem claim_C4_root_relative {l p t s : Line}
    (h : linkMatch l = some (p, t, s)) (hlit : t ≠ "doc/download-flow.md".data)
    (hpre : startsAny t = false) :
    stepLine true l = (true, p ++ ("../../".data ++ t) ++ s, true) := by
  have hroot := rewriteTarget_root hlit hpre
  have hstep := stepLine_match_changed h (by rw [hroot]; exact root_ne t)
  rwa [hroot] at hstep

theorem claim_C4_witness :
    stepLine true "- [x](ios/Classes/Foo.swift)\n".data =
      (true, "- [x](".data ++ ("../../".data ++ "ios/Classes/Foo.swift".data) ++
        ")\n".data, true) :=
  claim_C4_root_relative (by decide) (by decide) (by decide)

/-- C6: a line is rewritten only when the scan state is INSIDE: with the
flag OUTSIDE every line (marker or not, candidate-shaped or not) is passed
through byte-identical with the changed bit clear, and the two marker
lines themselves are never rewritten in either state. -/
theorem claim_C6_region_confinement (inD : Bool) (l : Line)
    (h : inD = false ∨ stripLine l = "<details>".data ∨
      stripLine l = "</details>".data) :
    (stepLine inD l).2.1 = l ∧ (stepLine inD l).2.2 = false := by
  rcases h with h | h | h
  · subst h
    unfold stepLine
    by_cases h1 : stripLine l = "<details>".data
    · rw [if_pos h1]; exact ⟨rfl, rfl⟩
    · rw [if_neg h1]
      by_cases h2 : stripLine l = "</details>".data
      · rw [if_pos h2]; exact ⟨rfl, rfl⟩
      · rw [if_neg h2, if_neg (by simp)]; exact ⟨rfl, rfl⟩
  · unfold stepLine
    rw [if_pos h]
    exact ⟨rfl, rfl⟩
  · unfold stepLine
    by_cases h1 : stripLine l = "<details>".data
    · rw [if_pos h1]; exact ⟨rfl, rfl⟩
    · rw [if_neg h1, if_pos h]; exact ⟨rfl, rfl⟩

theorem claim_C6_witness :
    (stepLine false "- [x](lib/main.dart)\n".data).2.1 =
      "- [x](lib/main.dart)\n".data ∧
    (stepLine false "- [x](lib/main.dart)\n".data).2.2 = false :=
  claim_C6_region_confinement false "- [x](lib/main.dart)\n".data (Or.inl rfl)

/-- C10: a rewritten line only replaces the target substring: the matched
line decomposes as prefix ++ target ++ suffix (the suffix holding the
closing parenthesis, trailing whitespace and the line terminator taken
from the keepends split), and the output line is exactly
prefix ++ new target ++ suffix. -/
theorem claim_C10_rewrite_frame {l p t s : Line}
    (h : linkMatch l = some (p, t, s)) :
    l = p ++ t ++ s ∧ (stepLine true l).2.1 = p ++ rewriteTarget t ++ s := by
  obtain ⟨ws1, ws2, txt, r8, _, _, _, _, _, _, _, hp, hs, hl⟩ := linkMatch_some h
  refine ⟨hl, ?_⟩
  by_cases hne : rewriteTarget t ≠ t
  · rw [stepLine_match_changed h hne]
  · push_neg at hne
    rw [stepLine_match_unchanged h hne]
    show l = p ++ rewriteTarget t ++ s
    rw [hne]
    exact hl

theorem claim_C10_witness :
    "  - [x](lib/a.dart)\r\n".data =
      "  - [x](".data ++ "lib/a.dart".data ++ ")\r\n".data ∧
    (stepLine true "  - [x](lib/a.dart)\r\n".data).2.1 =
      "  - [x](".data ++ rewriteTarget "lib/a.dart".data ++ ")\r\n".data :=
  claim_C10_rewrite_frame (by decide)

/-! ### The scan state -/

theorem stepLine_state (inD : Bool) (l : Line) :
    (stepLine inD l).1 =
      (if stripLine l = "<details>".data then true
       else if stripLine l = "</details>".data then false else inD) := by
  unfold stepLine
  by_cases h1 : stripLine l = "<details>".data
  · rw [if_pos h1, if_pos h1]
  · rw [if_neg h1, if_neg h1]
    by_cases h2 : stripLine l = "</details>".data
    · rw [if_pos h2, if_pos h2]
    · rw [if_neg h2, if_neg h2]
      cases inD with
      | false => rw [if_neg (by simp)]
      | true =>
        rw [if_pos rfl]
        cases hm : linkMatch l with
        | none => rfl
        | some v =>
          obtain ⟨p, t, s⟩ := v
          show (if rewriteTarget t ≠ t then (true, p ++ rewriteTarget t ++ s, true)
            else (true, l, false)).1 = true
          by_cases h3 : rewriteTarget t ≠ t
          · rw [if_pos h3]
          · rw [if_neg h3]

theorem processLines_state (st : Bool) (ls : List Line) :
    (processLines st ls).2.1 = specRegionState st ls := by
  induction ls generalizing st with
  | nil => rfl
  | cons l ls ih =>
    have hstep : (processLines st (l :: ls)).2.1 =
        (processLines (stepLine st l).1 ls).2.1 := rfl
    rw [hstep, ih, stepLine_state]
    rfl

/-- C7 (corrected): the scan state is false at the start of each document
(the fold starts from `false`), and at the end of the document it equals
the terminal state of the spec section 4.2 marker state machine run from
OUTSIDE — which is INSIDE, not OUTSIDE, when the document's last marker
line is an unmatched open marker, so it is not in general false at the
end. -/
theorem claim_C7_amended_state (text : List Char) :
    (processLines false (splitlines text)).2.1 =
      specRegionState false (splitlines text) :=
  processLines_state false (splitlines text)

/-- C7 counterexample: a document consisting of a single open-marker line
finishes processing with the scan state true, not false. -/
theorem claim_C7_counterexample :
    (processLines false (splitlines "<details>\n".data)).2.1 = true := by
  decide

/-! ### Directory-level claims -/

/-- C8: when `docs/deepwiki` is not a directory, `main` raises
`SystemExit` with a human-readable message; no file is read or written
(the result carries no writes). -/
theorem claim_C8_missing_directory (fs : FS) (h : fs.deepwikiIsDir = false) :
    runMain fs = .error missingDirMsg := by
  unfold runMain
  rw [h]
  rw [if_neg (by simp)]

theorem claim_C8_witness : runMain ⟨false, []⟩ = .error missingDirMsg :=
  claim_C8_missing_directory ⟨false, []⟩ rfl

/-- C9: a directory entry named exactly `README.md` never produces a
write-back: every performed write is for some other file name. -/
theorem claim_C9_readme_excluded (fs : FS) (ws : List (String × List Char))
    (e : String × List Char) (hrun : runMain fs = .ok ws) (he : e ∈ ws) :
    e.1 ≠ "README.md" := by
  unfold runMain at hrun
  by_cases hd : fs.deepwikiIsDir = true
  · rw [if_pos hd] at hrun
    have hws := Except.ok.inj hrun
    subst hws
    rw [List.mem_filterMap] at he
    obtain ⟨a, _, ha⟩ := he
    simp only [writeOf] at ha
    by_cases hn : a.1 = "README.md"
    · rw [if_pos hn] at ha
      exact absurd ha (by simp)
    · rw [if_neg hn] at ha
      by_cases hc : (processDoc a.2).2 = true
      · rw [if_pos hc] at ha
        have he2 := Option.some.inj ha
        rw [← he2]
        exact hn
      · rw [if_neg hc] at ha
        exact absurd ha (by simp)
  · rw [if_neg hd] at hrun
    exact absurd hrun (by simp)

theorem claim_C9_witness :
    (("a.md", "<details>\n- [x](../../README.md)\n</details>\n".data) :
      String × List Char).1 ≠ "README.md" :=
  claim_C9_readme_excluded
    ⟨true, [("README.md", "<details>\n- [x](README.md)\n</details>\n".data),
            ("a.md", "<details>\n- [x](README.md)\n</details>\n".data)]⟩
    [("a.md", "<details>\n- [x](../../README.md)\n</details>\n".data)]
    ("a.md", "<details>\n- [x](../../README.md)\n</details>\n".data)
    (by rfl) (by simp)

/-- C5: a write-back for (name, content) occurs iff the work list holds a
document with that name whose processing changed at least one line, the
name is not `README.md`, and content is the processed text. -/
theorem claim_C5_write_iff_changed (fs : FS) (ws : List (String × List Char))
    (hrun : runMain fs = .ok ws) (n : String) (c : List Char) :
    ((n, c) ∈ ws ↔ ∃ text, (n, text) ∈ mdDocs fs ∧ n ≠ "README.md" ∧
      processDoc text = (c, true)) := by
  unfold runMain at hrun
  by_cases hd : fs.deepwikiIsDir = true
  · rw [if_pos hd] at hrun
    have hws := Except.ok.inj hrun
    subst hws
    rw [List.mem_filterMap]
    constructor
    · rintro ⟨a, hmem, ha⟩
      simp only [writeOf] at ha
      by_cases hn : a.1 = "README.md"
      · rw [if_pos hn] at ha
        exact absurd ha (by simp)
      · rw [if_neg hn] at ha
        by_cases hc : (processDoc a.2).2 = true
        · rw [if_pos hc] at ha
          have he2 := Option.some.inj ha
          have hfst : a.1 = n := congrArg Prod.fst he2
          have hsnd : (processDoc a.2).1 = c := congrArg Prod.snd he2
          refine ⟨a.2, ?_, ?_, ?_⟩
          · rw [← hfst]
            exact hmem
          · rw [← hfst]
            exact hn
          · have hsplit : processDoc a.2 =
                ((processDoc a.2).1, (processDoc a.2).2) := rfl
            rw [hsplit, hsnd, hc]
        · rw [if_neg hc] at ha
          exact absurd ha (by simp)
    · rintro ⟨text, hmem, hn, hpt⟩
      refine ⟨(n, text), hmem, ?_⟩
      simp only [writeOf]
      rw [if_neg hn]
      rw [hpt]
      simp
  · rw [if_neg hd] at hrun
    exact absurd hrun (by simp)

theorem claim_C5_witness :
    ((("page.md", "<details>\n- [x](../../README.md)\n</details>\n".data) ∈
        ([("page.md", "<details>\n- [x](../../README.md)\n</details>\n".data)] :
          List (String × List Char))) ↔
      ∃ text, ("page.md", text) ∈ mdDocs
          ⟨true, [("page.md", "<details>\n- [x](README.md)\n</details>\n".data)]⟩ ∧
        "page.md" ≠ "README.md" ∧
        processDoc text =
          ("<details>\n- [x](../../README.md)\n</details>\n".data, true)) :=
  claim_C5_write_iff_changed
    ⟨true, [("page.md", "<details>\n- [x](README.md)\n</details>\n".data)]⟩
    [("page.md", "<details>\n- [x](../../README.md)\n</details>\n".data)]
    (by rfl) "page.md" "<details>\n- [x](../../README.md)\n</details>\n".data

/-! ### splitlines equations, well-formedness and the split-join roundtrip -/

theorem splitlines_cons_cons (c c2 : Char) (cs : List Char) :
    splitlines (c :: c2 :: cs) =
      if c = '\r' ∧ c2 = '\n' then ['\r', '\n'] :: splitlines cs
      else if isTerm c then [c] :: splitlines (c2 :: cs)
      else
        match splitlines (c2 :: cs) with
        | [] => [[c]]
        | l :: ls => (c :: l) :: ls := rfl

theorem term_not_r {c : Char} (hc : isTerm c = false) : c ≠ '\r' := by
  intro h
  subst h
  exact absurd hc (by decide)

theorem noTermChar_nil : noTermChar [] :=
  fun d hd => absurd hd (List.not_mem_nil d)

theorem splitlines_line (b term rest : List Char)
    (hb : noTermChar b)
    (hterm : term = ['\r', '\n'] ∨ ∃ c, isTerm c = true ∧ term = [c])
    (hadj : term = ['\r'] → rest.head? ≠ some '\n') :
    splitlines (b ++ term ++ rest) = (b ++ term) :: splitlines rest := by
  induction b with
  | nil =>
    simp only [List.nil_append]
    rcases hterm with h | ⟨c, hc, h⟩
    · subst h
      rw [show (['\r', '\n'] : Line) ++ rest = '\r' :: '\n' :: rest from rfl,
        splitlines_cons_cons, if_pos ⟨rfl, rfl⟩]
    · subst h
      cases rest with
      | nil => simp [splitlines]
      | cons r rs =>
        have hcr : ¬(c = '\r' ∧ r = '\n') := by
          rintro ⟨h1, h2⟩
          subst h1
          subst h2
          exact hadj rfl rfl
        rw [show ([c] : Line) ++ r :: rs = c :: r :: rs from rfl,
          splitlines_cons_cons, if_neg hcr, if_pos hc]
  | cons x b ih =>
    have hx : isTerm x = false := hb x (by simp)
    have hb2 : noTermChar b := fun d hd => hb d (by simp [hd])
    have hterm_ne : term ≠ [] := by
      rcases hterm with h | ⟨c, _, h⟩ <;> simp [h]
    have hrec := ih hb2
    have hne : b ++ term ++ rest ≠ [] := by
      intro hz
      have h1 := List.append_eq_nil.mp hz
      have h2 := List.append_eq_nil.mp h1.1
      exact hterm_ne h2.2
    obtain ⟨y, ys, hy⟩ := List.exists_cons_of_ne_nil hne
    simp only [List.cons_append]
    rw [show x :: (b ++ term ++ rest) = x :: (b ++ term ++ rest) from rfl]
    rw [hy, splitlines_cons_cons,
      if_neg (fun hh => (term_not_r hx) hh.1), if_neg (by simp [hx]),
      ← hy, hrec]

theorem splitlines_noterm (b : List Char) (hb : noTermChar b) (hne : b ≠ []) :
    splitlines b = [b] := by
  induction b with
  | nil => exact absurd rfl hne
  | cons x b ih =>
    cases b with
    | nil => rfl
    | cons y ys =>
      have hx : isTerm x = false := hb x (by simp)
      have hb2 : noTermChar (y :: ys) := fun d hd => hb d (by simp [hd])
      rw [splitlines_cons_cons, if_neg (fun hh => (term_not_r hx) hh.1),
        if_neg (by simp [hx]), ih hb2 (by simp)]

theorem splitlines_head {cs : List Char} {l : Line} {ls : List Line}
    (h : splitlines cs = l :: ls) : l.head? = cs.head? := by
  cases cs with
  | nil => exact absurd h (by simp [splitlines])
  | cons c cs2 =>
    cases cs2 with
    | nil =>
      injection h with h1 _
      rw [← h1]
    | cons c2 cs3 =>
      rw [splitlines_cons_cons] at h
      by_cases h1 : c = '\r' ∧ c2 = '\n'
      · rw [if_pos h1] at h
        injection h with h2 _
        rw [← h2, h1.1]
        rfl
      · rw [if_neg h1] at h
        by_cases h2 : isTerm c = true
        · rw [if_pos h2] at h
          injection h with h3 _
          rw [← h3]
          rfl
        · rw [if_neg h2] at h
          cases hs : splitlines (c2 :: cs3) with
          | nil =>
            rw [hs] at h
            injection h with h4 _
            rw [← h4]
            rfl
          | cons l2 ls2 =>
            rw [hs] at h
            injection h with h4 _
            rw [← h4]
            rfl

theorem term_all_isTerm {term : Line}
    (h : term = ['\r', '\n'] ∨ ∃ c, isTerm c = true ∧ term = [c]) :
    ∀ c ∈ term, isTerm c = true := by
  rcases h with h | ⟨c0, hc0, h⟩ <;> subst h
  · intro c hc
    simp at hc
    rcases hc with rfl | rfl <;> decide
  · intro c hc
    simp at hc
    subst hc
    exact hc0

theorem MidWF_ne_nil {l : Line} (h : MidWF l) : l ≠ [] := by
  obtain ⟨b, term, hl, _, hsh⟩ := h
  subst hl
  rcases hsh with h | ⟨c, _, h⟩ <;> subst h <;> simp

theorem LinesWF_first_ne {l : Line} {ls : List Line} (h : LinesWF (l :: ls)) :
    l ≠ [] := by
  cases ls with
  | nil =>
    have h' : LastWF l := h
    rcases h' with hm | ⟨hne, _⟩
    · exact MidWF_ne_nil hm
    · exact hne
  | cons l2 ls2 =>
    obtain ⟨hm, _, _⟩ := h
    exact MidWF_ne_nil hm

theorem LinesWF_cons_of {l : Line} {ls : List Line} (hMid : MidWF l)
    (hadj : ∀ l2 ls2, ls = l2 :: ls2 → l.getLast? = some '\r' →
      l2.head? ≠ some '\n')
    (hls : LinesWF ls) : LinesWF (l :: ls) := by
  cases ls with
  | nil => exact Or.inl hMid
  | cons l2 ls2 => exact ⟨hMid, hadj l2 ls2 rfl, hls⟩

theorem MidWF_cons {c : Char} (hc : isTerm c = false) {l : Line}
    (h : MidWF l) : MidWF (c :: l) := by
  obtain ⟨b, term, hl, hb, hsh⟩ := h
  refine ⟨c :: b, term, ?_, ?_, hsh⟩
  · rw [hl, List.cons_append]
  · intro d hd
    rcases List.mem_cons.mp hd with rfl | hd2
    · exact hc
    · exact hb d hd2

theorem getLast?_cons_ne {c : Char} {l : Line} (h : l ≠ []) :
    (c :: l).getLast? = l.getLast? := by
  obtain ⟨y, ys, hy⟩ := List.exists_cons_of_ne_nil h
  rw [hy, List.getLast?_cons_cons]

theorem LinesWF_cons_nonterm {c : Char} (hc : isTerm c = false) {l : Line}
    {ls : List Line} (h : LinesWF (l :: ls)) (hlne : l ≠ []) :
    LinesWF ((c :: l) :: ls) := by
  cases ls with
  | nil =>
    have h' : LastWF l := h
    rcases h' with hm | ⟨_, hnt⟩
    · exact Or.inl (MidWF_cons hc hm)
    · refine Or.inr ⟨by simp, fun d hd => ?_⟩
      rcases List.mem_cons.mp hd with rfl | hd2
      · exact hc
      · exact hnt d hd2
  | cons l2 ls2 =>
    obtain ⟨hm, hadj, htail⟩ := h
    refine ⟨MidWF_cons hc hm, ?_, htail⟩
    rw [getLast?_cons_ne hlne]
    exact hadj

theorem splitlines_WF (s : List Char) : LinesWF (splitlines s) := by
  induction s using splitlines.induct with
  | case1 => exact trivial
  | case2 c =>
    by_cases hc : isTerm c = true
    · exact Or.inl ⟨[], [c], rfl, noTermChar_nil, Or.inr ⟨c, hc, rfl⟩⟩
    · refine Or.inr ⟨by simp, fun d hd => ?_⟩
      simp at hd
      subst hd
      exact Bool.eq_false_iff.mpr hc
  | case3 c c2 cs h12 ih =>
    obtain ⟨h1, h2⟩ := h12
    subst h1
    subst h2
    rw [splitlines_cons_cons, if_pos ⟨rfl, rfl⟩]
    refine LinesWF_cons_of ⟨[], ['\r', '\n'], rfl, noTermChar_nil, Or.inl rfl⟩
      (fun l2 ls2 hsp hlast => absurd hlast (by decide)) ih
  | case4 c c2 cs h12 hterm ih =>
    rw [splitlines_cons_cons, if_neg h12, if_pos hterm]
    refine LinesWF_cons_of ⟨[], [c], rfl, noTermChar_nil, Or.inr ⟨c, hterm, rfl⟩⟩
      (fun l2 ls2 hsp hlast => ?_) ih
    have hc : c = '\r' := by simpa using hlast
    subst hc
    have hc2 : c2 ≠ '\n' := fun hh => h12 ⟨rfl, hh⟩
    rw [splitlines_head hsp]
    simp [hc2]
  | case5 c c2 cs h12 hterm hnil ih =>
    rw [splitlines_cons_cons, if_neg h12, if_neg hterm, hnil]
    refine Or.inr ⟨by simp, fun d hd => ?_⟩
    simp at hd
    subst hd
    exact Bool.eq_false_iff.mpr hterm
  | case6 c c2 cs h12 hterm l ls hcons ih =>
    rw [splitlines_cons_cons, if_neg h12, if_neg hterm, hcons]
    rw [hcons] at ih
    exact LinesWF_cons_nonterm (Bool.eq_false_iff.mpr hterm) ih
      (LinesWF_first_ne ih)

theorem joinLines_cons (l : Line) (ls : List Line) :
    joinLines (l :: ls) = l ++ joinLines ls := rfl

theorem joinLines_splitlines {ls : List Line} (h : LinesWF ls) :
    splitlines (joinLines ls) = ls := by
  induction ls with
  | nil => rfl
  | cons l ls ih =>
    cases ls with
    | nil =>
      have h' : LastWF l := h
      rcases h' with ⟨b, term, hl, hb, hsh⟩ | ⟨hne, hnt⟩
      · rw [joinLines_cons, show joinLines ([] : List Line) = [] from rfl,
          List.append_nil, hl]
        have hs := splitlines_line b term [] hb hsh (fun _ => by simp)
        rw [List.append_nil] at hs
        rw [hs]
        rfl
      · rw [joinLines_cons, show joinLines ([] : List Line) = [] from rfl,
          List.append_nil]
        exact splitlines_noterm l hnt hne
    | cons l2 ls2 =>
      obtain ⟨hMid, hadj, htail⟩ := h
      obtain ⟨b, term, hl, hb, hsh⟩ := hMid
      have hl2ne : l2 ≠ [] := LinesWF_first_ne htail
      have hheadJ : (joinLines (l2 :: ls2)).head? = l2.head? := by
        rw [joinLines_cons]
        cases l2 with
        | nil => exact absurd rfl hl2ne
        | cons a as => rfl
      have hadj2 : term = ['\r'] →
          (joinLines (l2 :: ls2)).head? ≠ some '\n' := by
        intro ht
        rw [hheadJ]
        apply hadj
        rw [hl, ht]
        exact List.getLast?_concat b
      rw [joinLines_cons, hl,
        splitlines_line b term (joinLines (l2 :: ls2)) hb hsh hadj2,
        ih htail, ← hl]

/-! ### Preservation of line well-formedness by the rewrite -/

theorem append_eq_append_cases (x a y b : List Char) (h : x ++ a = y ++ b) :
    (∃ e, y = x ++ e ∧ a = e ++ b) ∨ (∃ e, x = y ++ e ∧ b = e ++ a) := by
  induction x generalizing y with
  | nil => exact Or.inl ⟨y, rfl, h⟩
  | cons c x ih =>
    cases y with
    | nil => exact Or.inr ⟨c :: x, rfl, h.symm⟩
    | cons d y =>
      rw [List.cons_append, List.cons_append] at h
      injection h with h1 h2
      subst h1
      rcases ih y h2 with ⟨e, hy, ha⟩ | ⟨e, hx, hb⟩
      · exact Or.inl ⟨e, by rw [List.cons_append, hy], ha⟩
      · exact Or.inr ⟨e, by rw [List.cons_append, hx], hb⟩

theorem getLast?_append_cons (x : List Char) (c : Char) (r : List Char) :
    (x ++ c :: r).getLast? = (c :: r).getLast? := by
  induction x with
  | nil => rfl
  | cons a x ih =>
    rw [List.cons_append]
    obtain ⟨y, ys, hy⟩ := List.exists_cons_of_ne_nil
      (show x ++ c :: r ≠ [] by simp)
    rw [hy, List.getLast?_cons_cons, ← hy, ih]

theorem match_parts_noterm {l p t s b term : Line}
    (hmp : MatchParts l p t s) (hl : l = b ++ term) (hb : noTermChar b)
    (hterm : ∀ c ∈ term, isTerm c = true) :
    ∃ m, b = (p ++ t ++ [')']) ++ m ∧ s = (')' :: m) ++ term := by
  obtain ⟨ws1, ws2, txt, r8, _, _, _, _, _, _, _, hp, hs, hl2⟩ := hmp
  have heq : (p ++ t ++ [')']) ++ r8 = b ++ term := by
    rw [← hl, hl2, hs]
    simp [List.append_assoc]
  rcases append_eq_append_cases _ _ _ _ heq with ⟨e, hbE, hr8⟩ | ⟨e, hptE, htermE⟩
  · refine ⟨e, hbE, ?_⟩
    rw [hs, hr8]
    rfl
  · cases e with
    | nil =>
      rw [List.append_nil] at hptE
      refine ⟨[], ?_, ?_⟩
      · rw [List.append_nil]
        exact hptE.symm
      · rw [hs, htermE]
        rfl
    | cons e0 es =>
      exfalso
      have hlast : (b ++ e0 :: es).getLast? = some ')' := by
        rw [← hptE]
        exact List.getLast?_concat _
      rw [getLast?_append_cons] at hlast
      have hmem : (')' : Char) ∈ e0 :: es := List.mem_of_mem_getLast? hlast
      have hmem2 : (')' : Char) ∈ term := by
        rw [htermE]
        exact List.mem_append.mpr (Or.inl hmem)
      exact absurd (hterm _ hmem2) (by decide)

theorem rewriteTarget_noterm {t : Line} (h : ∀ c ∈ t, isTerm c = false) :
    ∀ c ∈ rewriteTarget t, isTerm c = false := by
  by_cases h1 : t = "doc/download-flow.md".data
  · subst h1
    rw [rewriteTarget_lit]
    decide
  · by_cases h2 : startsAny t = true
    · rw [rewriteTarget_pass h2]
      exact h
    · rw [rewriteTarget_root h1 (Bool.eq_false_iff.mpr h2)]
      intro c hc
      rcases List.mem_append.mp hc with hc1 | hc2
      · exact (show ∀ c ∈ ("../../".data : Line), isTerm c = false by decide) c hc1
      · exact h c hc2

theorem stepLine_out_cases (inD : Bool) (l : Line) :
    (stepLine inD l).2.1 = l ∨
      ∃ p t s, linkMatch l = some (p, t, s) ∧ rewriteTarget t ≠ t ∧
        (stepLine inD l).2.1 = p ++ rewriteTarget t ++ s := by
  by_cases h1 : stripLine l = "<details>".data
  · left
    unfold stepLine
    rw [if_pos h1]
  by_cases h2 : stripLine l = "</details>".data
  · left
    unfold stepLine
    rw [if_neg h1, if_pos h2]
  cases inD with
  | false =>
    left
    unfold stepLine
    rw [if_neg h1, if_neg h2, if_neg (by simp)]
  | true =>
    cases hm : linkMatch l with
    | none =>
      left
      unfold stepLine
      rw [if_neg h1, if_neg h2, if_pos rfl, hm]
    | some v =>
      obtain ⟨p, t, s⟩ := v
      by_cases h3 : rewriteTarget t ≠ t
      · right
        exact ⟨p, t, s, rfl, h3, by rw [stepLine_match_changed hm h3]⟩
      · left
        rw [stepLine_match_unchanged hm (not_not.mp h3)]

theorem stepLine_head (inD : Bool) (l : Line) :
    (stepLine inD l).2.1.head? = l.head? := by
  rcases stepLine_out_cases inD l with he | ⟨p, t, s, hm, hne, hout⟩
  · rw [he]
  · obtain ⟨ws1, ws2, txt, r8, _, _, _, _, _, _, _, hp, hs, hl⟩ :=
      linkMatch_some hm
    rw [hout, hl, hp]
    cases ws1 with
    | nil => rfl
    | cons w ws => rfl

theorem stepLine_getLast (inD : Bool) (l : Line) :
    (stepLine inD l).2.1.getLast? = l.getLast? := by
  rcases stepLine_out_cases inD l with he | ⟨p, t, s, hm, hne, hout⟩
  · rw [he]
  · obtain ⟨ws1, ws2, txt, r8, _, _, _, _, _, _, _, hp, hs, hl⟩ :=
      linkMatch_some hm
    rw [hout, hl, hs, getLast?_append_cons, getLast?_append_cons]

theorem stepLine_MidWF (inD : Bool) {l : Line} (h : MidWF l) :
    MidWF ((stepLine inD l).2.1) := by
  rcases stepLine_out_cases inD l with he | ⟨p, t, s, hm, hne, hout⟩
  · rw [he]
    exact h
  · obtain ⟨b, term, hl, hb, hsh⟩ := h
    have hmp := linkMatch_some hm
    obtain ⟨m, hbm, hsm⟩ := match_parts_noterm hmp hl hb (term_all_isTerm hsh)
    refine ⟨p ++ rewriteTarget t ++ (')' :: m), term, ?_, ?_, hsh⟩
    · rw [hout, hsm]
      simp [List.append_assoc]
    · have hpm : ∀ c ∈ (p ++ t ++ [')']) ++ m, isTerm c = false := by
        rw [← hbm]
        exact hb
      intro d hd
      rcases List.mem_append.mp hd with hd1 | hd2
      · rcases List.mem_append.mp hd1 with hd3 | hd4
        · exact hpm d (by simp [hd3])
        · have htnt : ∀ c ∈ t, isTerm c = false := fun c hc =>
            hpm c (by simp [hc])
          exact rewriteTarget_noterm htnt d hd4
      · rcases List.mem_cons.mp hd2 with hd4 | hd5
        · exact hpm d (by rw [hd4]; simp)
        · exact hpm d (by simp [hd5])

theorem stepLine_LastWF (inD : Bool) {l : Line} (h : LastWF l) :
    LastWF ((stepLine inD l).2.1) := by
  rcases h with hm | ⟨hne, hnt⟩
  · exact Or.inl (stepLine_MidWF inD hm)
  · rcases stepLine_out_cases inD l with he | ⟨p, t, s, hmm, hne2, hout⟩
    · rw [he]
      exact Or.inr ⟨hne, hnt⟩
    · obtain ⟨ws1, ws2, txt, r8, _, _, _, _, _, _, _, hp, hs, hl⟩ :=
        linkMatch_some hmm
      right
      constructor
      · rw [hout, hs]
        simp
      · intro d hd
        rw [hout] at hd
        rcases List.mem_append.mp hd with hd1 | hd2
        · rcases List.mem_append.mp hd1 with hd3 | hd4
          · exact hnt d (by rw [hl]; simp [hd3])
          · have htnt : ∀ c ∈ t, isTerm c = false := fun c hc =>
              hnt c (by rw [hl]; simp [hc])
            exact rewriteTarget_noterm htnt d hd4
        · exact hnt d (by rw [hl]; simp [hd2])

theorem processLines_cons (inD : Bool) (l : Line) (ls : List Line) :
    processLines inD (l :: ls) =
      ((stepLine inD l).2.1 :: (processLines (stepLine inD l).1 ls).1,
       (processLines (stepLine inD l).1 ls).2.1,
       (stepLine inD l).2.2 || (processLines (stepLine inD l).1 ls).2.2) := rfl

theorem processLines_WF (inD : Bool) (ls : List Line) :
    LinesWF ls → LinesWF ((processLines inD ls).1) := by
  induction ls generalizing inD with
  | nil => exact fun _ => trivial
  | cons l ls ih =>
    intro h
    cases ls with
    | nil =>
      have h' : LastWF l := h
      exact stepLine_LastWF inD h'
    | cons l2 ls2 =>
      obtain ⟨hMid, hadj, htail⟩ := h
      rw [processLines_cons]
      apply LinesWF_cons_of
      · exact stepLine_MidWF inD hMid
      · intro l2' ls2' hsp hlast
        have hsp2 : (stepLine (stepLine inD l).1 l2).2.1 ::
            (processLines (stepLine (stepLine inD l).1 l2).1 ls2).1 =
            l2' :: ls2' := by
          rw [← hsp]
          rfl
        injection hsp2 with hh _
        rw [← hh, stepLine_head]
        rw [stepLine_getLast] at hlast
        exact hadj hlast
      · exact ih (stepLine inD l).1 htail

/-! ### Idempotence -/

theorem stepLine_idem (inD : Bool) (l : Line) :
    stepLine inD (stepLine inD l).2.1 =
      ((stepLine inD l).1, (stepLine inD l).2.1, false) := by
  by_cases h1 : stripLine l = "<details>".data
  · have e : stepLine inD l = (true, l, false) := by
      unfold stepLine
      rw [if_pos h1]
    rw [e]
    exact e
  by_cases h2 : stripLine l = "</details>".data
  · have e : stepLine inD l = (false, l, false) := by
      unfold stepLine
      rw [if_neg h1, if_pos h2]
    rw [e]
    exact e
  cases inD with
  | false =>
    have e : stepLine false l = (false, l, false) := by
      unfold stepLine
      rw [if_neg h1, if_neg h2, if_neg (by simp)]
    rw [e]
    exact e
  | true =>
    cases hm : linkMatch l with
    | none =>
      have e : stepLine true l = (true, l, false) := by
        unfold stepLine
        rw [if_neg h1, if_neg h2, if_pos rfl, hm]
      rw [e]
      exact e
    | some v =>
      obtain ⟨p, t, s⟩ := v
      by_cases h3 : rewriteTarget t ≠ t
      · have e := stepLine_match_changed hm h3
        rw [e]
        obtain ⟨ws1, ws2, txt, r8, hws1, hws2, htx, htxall, htne, htall, hr8,
          hp, hs, hl⟩ := linkMatch_some hm
        have hshape : p ++ rewriteTarget t ++ s =
            ws1 ++ '-' :: (ws2 ++ '[' :: (txt ++ ']' :: '(' ::
              (rewriteTarget t ++ ')' :: r8))) := by
          rw [hp, hs]
          simp [List.append_assoc]
        have hnew : linkMatch (p ++ rewriteTarget t ++ s) =
            some (p, rewriteTarget t, s) := by
          rw [hshape, linkMatch_build ws1 ws2 txt (rewriteTarget t) r8 hws1
            hws2 htx htxall (rewriteTarget_ne_nil h3)
            (rewriteTarget_no_paren htall) hr8, hp, hs]
        exact stepLine_match_unchanged hnew (rewriteTarget_fix h3)
      · have e := stepLine_match_unchanged hm (not_not.mp h3)
        rw [e]
        exact e

theorem processLines_idem (inD : Bool) (ls : List Line) :
    processLines inD (processLines inD ls).1 =
      ((processLines inD ls).1, (processLines inD ls).2.1, false) := by
  induction ls generalizing inD with
  | nil => rfl
  | cons l ls ih =>
    simp only [processLines_cons, stepLine_idem, ih]
    simp

/-- C1: the per-document transform is idempotent: processing the output of
a first processing pass returns that output byte-identically with the
changed flag clear, so a second run writes nothing — every rewritten
target begins with `../` and is caught by the passthrough rule. -/
theorem claim_C1_idempotent (text : List Char) :
    processDoc ((processDoc text).1) = ((processDoc text).1, false) := by
  have hWF2 : LinesWF ((processLines false (splitlines text)).1) :=
    processLines_WF false (splitlines text) (splitlines_WF text)
  have hsplit := joinLines_splitlines hWF2
  have hidem := processLines_idem false (splitlines text)
  show processDoc (joinLines (processLines false (splitlines text)).1) =
    (joinLines (processLines false (splitlines text)).1, false)
  have hpd2 : processDoc (joinLines (processLines false (splitlines text)).1) =
      (joinLines (processLines false
          (splitlines (joinLines (processLines false (splitlines text)).1))).1,
       (processLines false
          (splitlines (joinLines
            (processLines false (splitlines text)).1))).2.2) := rfl
  rw [hpd2, hsplit, hidem]
